import Mathlib

/-!
Verification development for the move tokenizer and Botez-gambit detector of
src/chess.py (class BotezGambits).  Python strings are shallow-embedded as
List Char; the two core functions _get_moves_list and _get_botez_gambit are
translated definition by definition.  The IndexError that
pgn.split with two newlines can raise is modelled by an Option result.
-/

namespace Chess

/-- The two sides, mirroring the string keys of the status dict
in _get_botez_gambit. -/
inductive Color where
  | white
  | black
deriving DecidableEq

/-- The flip_color dict of _get_botez_gambit. -/
def flipColor : Color → Color
  | Color.white => Color.black
  | Color.black => Color.white

/-- The loop state of _get_botez_gambit: the fallen_queen local variable
together with the status dict (tracked queen square of each side and the
side to move). -/
structure DetState where
  fallen : Option (Nat × List Char)
  whiteQ : List Char
  blackQ : List Char
  toMove : Color
deriving DecidableEq

/-- Initial status of _get_botez_gambit: white queen on d1, black queen on
d8, white to move, no fallen queen. -/
def initStatus : DetState := ⟨none, ['d', '1'], ['d', '8'], Color.white⟩

/-- Lookup status[c] for a color c (the tracked queen square). -/
def queenOf (st : DetState) : Color → List Char
  | Color.white => st.whiteQ
  | Color.black => st.blackQ

/-- Assignment status[c] = sq for a color c. -/
def setQueen (st : DetState) : Color → List Char → DetState
  | Color.white, sq => { st with whiteQ := sq }
  | Color.black, sq => { st with blackQ := sq }

/-- Python startsWith test move.startswith for the queen piece letter Q. -/
def startsWithQ : List Char → Bool
  | 'Q' :: _ => true
  | _ => false

/-- Python substring containment helper: does s start with pat. -/
def startsWith : List Char → List Char → Bool
  | [], _ => true
  | _ :: _, [] => false
  | p :: ps, c :: cs => p == c && startsWith ps cs

/-- Python substring containment pat in s (contiguous occurrence). -/
def isSubstr : List Char → List Char → Bool
  | pat, [] => startsWith pat []
  | pat, c :: rest => startsWith pat (c :: rest) || isSubstr pat rest

/-- Python re.sub of the pattern Q(x)? with the empty string: delete every
letter Q together with a letter x directly following it, scanning left to
right. -/
def subQx : List Char → List Char
  | [] => []
  | [c] => if c = 'Q' then [] else [c]
  | c :: d :: rest =>
    if c = 'Q' then (if d = 'x' then subQx rest else subQx (d :: rest))
    else c :: subQx (d :: rest)

/-- Destination square stored for a queen move (lines 124-125 of chess.py):
first move.replace removes every plus sign, then subQx removes the piece
letter with an optional capture letter. -/
def queenDest (move : List Char) : List Char :=
  subQx (move.filter (fun c => c != '+'))

/-- Lines 123-125 of chess.py: if the move starts with Q, set the moving
side's tracked queen square to queenDest move. -/
def qUpdate (st : DetState) (move : List Char) : DetState :=
  if startsWithQ move then setQueen st st.toMove (queenDest move) else st

/-- Tail of the loop body of _get_botez_gambit (lines 123-127): the
queen-move update followed by the color flip. -/
def finishStep (st : DetState) (move : List Char) : DetState :=
  let st1 := qUpdate st move
  { st1 with toMove := flipColor st1.toMove }

/-- Result of one iteration of the replay loop: an early return out of
_get_botez_gambit, or the state carried to the next iteration. -/
inductive StepRes where
  | ret (r : Option (Nat × List Char))
  | cont (st : DetState)
deriving DecidableEq

/-- One iteration of the replay loop of _get_botez_gambit, for the token
move at 0-based index i.  The branches appear in source order: the pending
check of lines 112-114, the queen-capture check of lines 116-121, the
queen-move update of lines 123-125, and the color flip of line 127.
The recorded ply (i + 2) / 2 is math.ceil of (i + 1) / 2. -/
def detStep (st : DetState) (i : Nat) (move : List Char) : StepRes :=
  if st.fallen.isSome ∧ ¬ ('x' ∈ move) ∧ ¬ ('#' ∈ move) then
    StepRes.ret st.fallen
  else if isSubstr ('x' :: queenOf st (flipColor st.toMove)) move then
    if st.fallen.isSome then
      StepRes.ret none
    else
      StepRes.cont (finishStep { st with fallen := some ((i + 2) / 2, move) } move)
  else
    StepRes.cont (finishStep st move)

/-- The replay loop of _get_botez_gambit starting in state st with the next
token at 0-based index i; falling off the end of the list is the implicit
return None of the Python function. -/
def getBotezGambitAux (st : DetState) (i : Nat) : List (List Char) → Option (Nat × List Char)
  | [] => none
  | move :: rest =>
    match detStep st i move with
    | StepRes.ret r => r
    | StepRes.cont st1 => getBotezGambitAux st1 (i + 1) rest

/-- _get_botez_gambit of chess.py. -/
def getBotezGambit (moves : List (List Char)) : Option (Nat × List Char) :=
  getBotezGambitAux initStatus 0 moves

/-- Observation of the replay loop: the state after consuming a list of
tokens when no early return fires on them, starting at index i. -/
def runSteps (st : DetState) (i : Nat) : List (List Char) → Option DetState
  | [] => some st
  | move :: rest =>
    match detStep st i move with
    | StepRes.ret _ => none
    | StepRes.cont st1 => runSteps st1 (i + 1) rest

/-- Whitespace for the Python re class with the backslash-s shorthand and
for str.strip with no arguments (ASCII range). -/
def isWs (c : Char) : Bool :=
  c == ' ' || c == '\t' || c == '\n' || c == '\x0D' || c == '\x0B' || c == '\x0C'

/-- Python str.split on a double newline, producing the list of parts
between the non-overlapping occurrences, scanned left to right. -/
def splitNN : List Char → List (List Char)
  | [] => [[]]
  | [c] => [[c]]
  | c :: d :: rest =>
    if c = '\n' ∧ d = '\n' then [] :: splitNN rest
    else
      match splitNN (d :: rest) with
      | [] => [[c]]
      | f :: fs => (c :: f) :: fs

/-- Scan for the first closing brace, failing on a newline or the end of
the input (the dot of the brace pattern does not match a newline); on
success return the characters after the closing brace. -/
def scanClose : List Char → Option (List Char)
  | [] => none
  | '}' :: rest => some rest
  | '\n' :: _ => none
  | _ :: rest => scanClose rest

/-- Python re.sub removing every lazily-matched brace group (an opening
brace, at least one non-newline character, a closing brace), fuelled by the
input length: each step consumes at least one character, so the fuel of the
removeBraces wrapper below is never exhausted. -/
def removeBracesF : Nat → List Char → List Char
  | _, [] => []
  | 0, l => l
  | fuel + 1, '{' :: rest =>
    match rest with
    | [] => ['{']
    | x :: xs =>
      if x == '\n' then '{' :: removeBracesF fuel (x :: xs)
      else
        match scanClose xs with
        | some after => removeBracesF fuel after
        | none => '{' :: removeBracesF fuel (x :: xs)
  | fuel + 1, c :: rest => c :: removeBracesF fuel rest

/-- Line 73 of chess.py: remove the clock annotations in braces. -/
def removeBraces (l : List Char) : List Char :=
  removeBracesF l.length l

/-- Line 75 of chess.py: str.replace of three dots by one dot. -/
def replaceDots : List Char → List Char
  | [] => []
  | '.' :: '.' :: '.' :: rest => '.' :: replaceDots rest
  | c :: rest => c :: replaceDots rest

/-- Line 77 of chess.py: str.replace removing the white-wins marker. -/
def replace10 : List Char → List Char
  | [] => []
  | '1' :: '-' :: '0' :: rest => replace10 rest
  | c :: rest => c :: replace10 rest

/-- Line 78 of chess.py: str.replace removing the black-wins marker. -/
def replace01 : List Char → List Char
  | [] => []
  | '0' :: '-' :: '1' :: rest => replace01 rest
  | c :: rest => c :: replace01 rest

/-- Line 79 of chess.py: str.replace removing the draw marker. -/
def replaceHalf : List Char → List Char
  | [] => []
  | '1' :: '/' :: '2' :: '-' :: '1' :: '/' :: '2' :: rest => replaceHalf rest
  | c :: rest => c :: replaceHalf rest

/-- Python str.strip with a character class p: drop the matching characters
from both ends. -/
def stripBoth (p : Char → Bool) (l : List Char) : List Char :=
  ((l.dropWhile p).reverse.dropWhile p).reverse

/-- Line 83 of chess.py: re.sub replacing one whitespace character followed
by a lazy nonempty run of whitespace by a single space.  The lazy plus
matches exactly one character, so each match is exactly two consecutive
whitespace characters. -/
def collapseWs : List Char → List Char
  | [] => []
  | [c] => [c]
  | c1 :: c2 :: rest =>
    if isWs c1 && isWs c2 then ' ' :: collapseWs rest
    else c1 :: collapseWs (c2 :: rest)

/-- Maximal run of digits dropped from the front (the greedy plus of the
digit class in the split pattern). -/
def dropDigits : List Char → List Char
  | [] => []
  | c :: rest => if c.isDigit then dropDigits rest else c :: rest

/-- Does the input start with a digit (the digit run is nonempty). -/
def hasDigitHead : List Char → Bool
  | [] => false
  | c :: _ => c.isDigit

/-- After the digit run of the split pattern: require a period, then
greedily consume one optional whitespace character; return the rest. -/
def afterDot : List Char → Option (List Char)
  | [] => none
  | [a] => if a = '.' then some [] else none
  | a :: w :: rest2 =>
    if a = '.' then (if isWs w then some rest2 else some (w :: rest2)) else none

/-- One match attempt of the split pattern (optional whitespace, one or
more digits, a period, optional whitespace) anchored at the start of the
input; on success return the characters after the match.  When the leading
optional whitespace is taken the digit run must follow it, otherwise
backtracking to the empty option would put the whitespace character where a
digit is required, so the attempt fails. -/
def matchNum : List Char → Option (List Char)
  | [] => none
  | c :: rest =>
    if isWs c then (if hasDigitHead rest then afterDot (dropDigits rest) else none)
    else (if hasDigitHead (c :: rest) then afterDot (dropDigits (c :: rest)) else none)

/-- Python re.split on the move-number pattern, fuelled by the input
length: every match consumes at least two characters and every non-match
position consumes one, so the fuel of the splitNums wrapper below is never
exhausted. -/
def splitNumsF : Nat → List Char → List (List Char)
  | _, [] => [[]]
  | 0, l => [l]
  | fuel + 1, c :: rest =>
    match matchNum (c :: rest) with
    | some r => [] :: splitNumsF fuel r
    | none =>
      match splitNumsF fuel rest with
      | [] => [[c]]
      | f :: fs => (c :: f) :: fs

/-- Line 85 of chess.py: split the normalized text on the move-number
pattern. -/
def splitNums (l : List Char) : List (List Char) :=
  splitNumsF l.length l

/-- Lines 73-83 of chess.py applied to the move-text part, in source
order: brace removal, dot normalization, the three result-marker removals,
the newline strip, the whitespace strip, and the whitespace-pair
collapse. -/
def normalizeMoves (m : List Char) : List Char :=
  collapseWs (stripBoth isWs (stripBoth (fun c => c == '\n')
    (replaceHalf (replace01 (replace10 (replaceDots (removeBraces m)))))))

/-- _get_moves_list of chess.py.  The index access after the split on the
blank line raises IndexError when the blob has no double newline; that
fatal path is modelled as none. -/
def getMovesList (pgn : List Char) : Option (List (List Char)) :=
  match splitNN pgn with
  | _ :: m :: _ => some ((splitNums (normalizeMoves m)).drop 1)
  | _ => none

/-- No digit immediately followed by a period occurs in the token (absence
of a move-number marker). -/
def noNumDot : List Char → Bool
  | [] => true
  | [_] => true
  | a :: b :: rest => !(a.isDigit && b == '.') && noNumDot (b :: rest)

/-- Concrete malformed blob used against C6: its metadata part m is
followed by move text containing a doubled result marker, an empty brace
pair and a bare trailing move number. -/
def pgnC6 : List Char :=
  ['m', '\n', '\n', '1', '.', ' ', 'e', '4', ' ', '1', '1', '-', '0', '-', '0',
   ' ', '2', '.', ' ', 'd', '4', ' ', '{', '}', ' ', '3', '.', ' ', '4', '.']

/-! Support lemmas about the detector state. -/

lemma flipColor_flipColor (c : Color) : flipColor (flipColor c) = c := by
  cases c <;> rfl

lemma setQueen_fallen (st : DetState) (c : Color) (sq : List Char) :
    (setQueen st c sq).fallen = st.fallen := by
  cases c <;> rfl

lemma setQueen_toMove (st : DetState) (c : Color) (sq : List Char) :
    (setQueen st c sq).toMove = st.toMove := by
  cases c <;> rfl

lemma queenOf_setQueen (st : DetState) (c : Color) (sq : List Char) :
    queenOf (setQueen st c sq) c = sq := by
  cases c <;> rfl

lemma qUpdate_fallen (st : DetState) (m : List Char) :
    (qUpdate st m).fallen = st.fallen := by
  unfold qUpdate
  split
  · exact setQueen_fallen st st.toMove (queenDest m)
  · rfl

lemma qUpdate_toMove (st : DetState) (m : List Char) :
    (qUpdate st m).toMove = st.toMove := by
  unfold qUpdate
  split
  · exact setQueen_toMove st st.toMove (queenDest m)
  · rfl

lemma finishStep_fallen (st : DetState) (m : List Char) :
    (finishStep st m).fallen = st.fallen := by
  simp [finishStep, qUpdate_fallen]

lemma finishStep_toMove (st : DetState) (m : List Char) :
    (finishStep st m).toMove = flipColor st.toMove := by
  simp [finishStep, qUpdate_toMove]

lemma queenOf_finishStep (st : DetState) (m : List Char) (c : Color) :
    queenOf (finishStep st m) c = queenOf (qUpdate st m) c := by
  cases c <;> rfl

lemma queenOf_setFallen (st : DetState) (f : Option (Nat × List Char)) (c : Color) :
    queenOf { st with fallen := f } c = queenOf st c := by
  cases c <;> rfl

lemma isSubstr_mem (a : Char) (l m : List Char) (h : isSubstr (a :: l) m = true) :
    a ∈ m := by
  induction m with
  | nil => simp [isSubstr, startsWith] at h
  | cons c rest ih =>
    rw [isSubstr] at h
    rcases Bool.or_eq_true_iff.mp h with h1 | h2
    · rw [startsWith, Bool.and_eq_true, beq_iff_eq] at h1
      exact h1.1 ▸ List.mem_cons_self c rest
    · exact List.mem_cons_of_mem c (ih h2)

/-- Helper: from a pending state, a token with neither the capture letter
nor the mate letter returns the recorded finding at once. -/
lemma aux_pending_ret (st : DetState) (i : Nat) (fq : Nat × List Char)
    (m : List Char) (rest : List (List Char)) (hf : st.fallen = some fq)
    (hx : 'x' ∉ m) (hm : '#' ∉ m) :
    getBotezGambitAux st i (m :: rest) = some fq := by
  simp [getBotezGambitAux, detStep, hf, hx, hm]

/-- Helper: one cont step of the loop. -/
lemma aux_cons_cont (st : DetState) (i : Nat) (m : List Char)
    (rest : List (List Char)) (st1 : DetState)
    (h : detStep st i m = StepRes.cont st1) :
    getBotezGambitAux st i (m :: rest) = getBotezGambitAux st1 (i + 1) rest := by
  rw [getBotezGambitAux, h]

/-- Helper: characterization of a queen-capture step taken from a
non-pending state. -/
lemma detStep_capture (st : DetState) (i : Nat) (m : List Char)
    (hf : st.fallen = none)
    (hc : isSubstr ('x' :: queenOf st (flipColor st.toMove)) m = true) :
    ∃ st1, detStep st i m = StepRes.cont st1
      ∧ st1.fallen = some ((i + 2) / 2, m)
      ∧ st1.toMove = flipColor st.toMove
      ∧ queenOf st1 st.toMove
          = (if startsWithQ m then queenDest m else queenOf st st.toMove) := by
  refine ⟨finishStep { st with fallen := some ((i + 2) / 2, m) } m, ?_, ?_, ?_, ?_⟩
  · simp [detStep, hf, hc]
  · simp [finishStep_fallen]
  · simp [finishStep_toMove]
  · rw [queenOf_finishStep]
    unfold qUpdate
    by_cases hq : startsWithQ m = true
    · rw [if_pos hq, if_pos hq]
      exact queenOf_setQueen _ _ _
    · rw [if_neg hq, if_neg hq]
      exact queenOf_setFallen _ _ _

/-! Claims about the detector. -/

/-- C1: for every token sequence, whenever the Detector is in the pending
state (a queen capture occurred on an earlier ply and is not yet resolved)
and the current token contains neither the capture marker x nor the marker
the code tests for a check ending the game (the hash sign of line 113), the
Detector returns the pending finding (the recorded ply number and capturing
move text) and stops processing the game, whatever tokens remain. -/
theorem c1_pending_quiet_emits (st : DetState) (i : Nat) (fq : Nat × List Char)
    (m : List Char) (rest : List (List Char)) (hf : st.fallen = some fq)
    (hx : 'x' ∉ m) (hm : '#' ∉ m) :
    getBotezGambitAux st i (m :: rest) = some fq :=
  aux_pending_ret st i fq m rest hf hx hm

/-- Witness for C1 at a concrete pending state and token. -/
theorem c1_witness :
    getBotezGambitAux ⟨some (1, ['Q', 'x', 'd', '5']), ['d', '5'], ['d', '8'], Color.black⟩
      3 [['N', 'f', '3']] = some (1, ['Q', 'x', 'd', '5']) :=
  c1_pending_quiet_emits _ 3 _ _ _ rfl (by decide) (by decide)

/-- C2 counterexample: the token sequence e4, Qxd1, Nf3 has a queen capture
at 0-based half-move index 1 (ply p = 2: black takes the white queen on its
tracked square d1) and the next token Nf3 is a non-capture, non-check move,
yet the code reports full move 1, not ceil of (p + 1) / 2 = 2 as the claim
demands. -/
theorem c2_counterexample :
    getBotezGambit [['e', '4'], ['Q', 'x', 'd', '1'], ['N', 'f', '3']]
        = some (1, ['Q', 'x', 'd', '1'])
      ∧ ¬ getBotezGambit [['e', '4'], ['Q', 'x', 'd', '1'], ['N', 'f', '3']]
        = some ((2 + 2) / 2, ['Q', 'x', 'd', '1']) := by
  decide

/-- C2 amended: when a queen capture (a token containing the capture marker
followed by the currently tracked opponent-queen square) occurs at 0-based
half-move index i in a non-pending state and the next token is a
non-capture, non-check move, the Detector returns a finding whose full-move
number is ceil of (i + 1) / 2, written (i + 2) / 2, and whose move text is
the capturing token — not ceil of (i + 2) / 2 as the claim stated. -/
theorem c2_capture_ply_amended (st : DetState) (i : Nat) (m1 m2 : List Char)
    (rest : List (List Char)) (hf : st.fallen = none)
    (hc : isSubstr ('x' :: queenOf st (flipColor st.toMove)) m1 = true)
    (hx : 'x' ∉ m2) (hm : '#' ∉ m2) :
    getBotezGambitAux st i (m1 :: m2 :: rest) = some ((i + 2) / 2, m1) := by
  obtain ⟨st1, hstep, hfall, -, -⟩ := detStep_capture st i m1 hf hc
  rw [aux_cons_cont st i m1 (m2 :: rest) st1 hstep]
  exact aux_pending_ret st1 (i + 1) _ m2 rest hfall hx hm

/-- Witness for C2 amended: white takes the black queen on d8 at index 0
and the finding is reported at full move (0 + 2) / 2 = 1. -/
theorem c2_witness :
    getBotezGambitAux initStatus 0 [['Q', 'x', 'd', '8'], ['N', 'f', '3']]
      = some (1, ['Q', 'x', 'd', '8']) :=
  c2_capture_ply_amended initStatus 0 _ _ [] rfl (by decide) (by decide) (by decide)

/-- C3: a queen capture on one ply entering the pending state, followed
immediately by a capture landing on the square now occupied by the
capturing queen (its updated tracked square), makes the Detector return
nothing and stop: a reciprocal queen trade, whatever tokens remain. -/
theorem c3_reciprocal_trade_none (st : DetState) (i : Nat) (m1 m2 : List Char)
    (rest : List (List Char)) (hf : st.fallen = none)
    (hq : startsWithQ m1 = true)
    (hc1 : isSubstr ('x' :: queenOf st (flipColor st.toMove)) m1 = true)
    (hc2 : isSubstr ('x' :: queenDest m1) m2 = true) :
    getBotezGambitAux st i (m1 :: m2 :: rest) = none := by
  obtain ⟨st1, hstep, hfall, htm, hqof⟩ := detStep_capture st i m1 hf hc1
  rw [aux_cons_cont st i m1 (m2 :: rest) st1 hstep]
  have hx2 : 'x' ∈ m2 := isSubstr_mem 'x' (queenDest m1) m2 hc2
  have hoq : queenOf st1 (flipColor st1.toMove) = queenDest m1 := by
    rw [htm, flipColor_flipColor, hqof, if_pos hq]
  rw [getBotezGambitAux]
  simp [detStep, hfall, hx2, hoq, hc2]

/-- Witness for C3: Qxd8 followed by Rxd8 yields no finding. -/
theorem c3_witness :
    getBotezGambitAux initStatus 0 [['Q', 'x', 'd', '8'], ['R', 'x', 'd', '8']] = none :=
  c3_reciprocal_trade_none initStatus 0 _ _ [] rfl (by decide) (by decide) (by decide)

/-- C5: if the Detector is in the pending state and every remaining token
contains the capture marker or the mate marker, the sequence is exhausted
without a finding: an unresolved queen capture at game end is never
reported.  In particular a sequence ending right after the capture (an
empty remainder) reports nothing. -/
theorem c5_pending_at_end_none (st : DetState) (i : Nat)
    (ms : List (List Char)) (fq : Nat × List Char) (hf : st.fallen = some fq)
    (hall : ∀ m ∈ ms, 'x' ∈ m ∨ '#' ∈ m) :
    getBotezGambitAux st i ms = none := by
  induction ms generalizing st i with
  | nil => rfl
  | cons m rest ih =>
    have hm := hall m (List.mem_cons_self m rest)
    have hcond : ¬ (st.fallen.isSome ∧ ¬ ('x' ∈ m) ∧ ¬ ('#' ∈ m)) := by
      rcases hm with h | h <;> simp [h]
    rw [getBotezGambitAux]
    unfold detStep
    rw [if_neg hcond]
    by_cases hsub : isSubstr ('x' :: queenOf st (flipColor st.toMove)) m = true
    · rw [if_pos hsub, if_pos (by simp [hf])]
    · rw [if_neg hsub]
      exact ih _ (i + 1) (by rw [finishStep_fallen, hf])
        (fun m2 hm2 => hall m2 (List.mem_cons_of_mem m hm2))

/-- Witness for C5: pending after Qxd8, then only capture or mate tokens
until the end. -/
theorem c5_witness :
    getBotezGambitAux ⟨some (1, ['Q', 'x', 'd', '8']), ['d', '8'], ['d', '8'], Color.black⟩
      1 [['R', 'x', 'e', '5'], ['N', 'f', '3', '#']] = none :=
  c5_pending_at_end_none _ 1 _ (1, ['Q', 'x', 'd', '8']) rfl (by decide)

/-- Helper: every continuing step flips the side to move, whatever the
state and the token. -/
lemma detStep_cont_toMove (st : DetState) (i : Nat) (m : List Char)
    (st2 : DetState) (h : detStep st i m = StepRes.cont st2) :
    st2.toMove = flipColor st.toMove := by
  unfold detStep at h
  split at h
  · cases h
  · split at h
    · split at h
      · cases h
      · cases h
        rw [finishStep_toMove]
    · cases h
      rw [finishStep_toMove]

/-- Helper: the side to move after consuming a list of tokens with no early
return depends only on the parity of the number of tokens. -/
lemma runSteps_toMove (ms : List (List Char)) : ∀ (st : DetState) (i : Nat)
    (st2 : DetState), runSteps st i ms = some st2 →
    st2.toMove = if ms.length % 2 = 0 then st.toMove else flipColor st.toMove := by
  induction ms with
  | nil =>
    intro st i st2 h
    rw [runSteps] at h
    cases h
    simp
  | cons m rest ih =>
    intro st i st2 h
    rw [runSteps] at h
    cases hs : detStep st i m with
    | ret r => rw [hs] at h; cases h
    | cont st1 =>
      rw [hs] at h
      have h1 := ih st1 (i + 1) st2 h
      have h2 := detStep_cont_toMove st i m st1 hs
      rw [h1, h2]
      by_cases hp : rest.length % 2 = 0
      · have hp1 : ¬ (m :: rest).length % 2 = 0 := by simp [List.length_cons]; omega
        rw [if_pos hp, if_neg hp1]
      · have hp1 : (m :: rest).length % 2 = 0 := by simp [List.length_cons]; omega
        rw [if_neg hp, if_pos hp1, flipColor_flipColor]

/-- C9: the side-to-move flag is flipped exactly once by every token whose
processing continues the loop, regardless of state or token content; hence
after any early-return-free run from the initial state, the side to move is
white exactly when the number of consumed tokens (the 0-based index of the
token examined next) is even. -/
theorem c9_color_alternation :
    (∀ (st : DetState) (i : Nat) (m : List Char) (st2 : DetState),
        detStep st i m = StepRes.cont st2 → st2.toMove = flipColor st.toMove)
    ∧ (∀ (ms : List (List Char)) (st2 : DetState),
        runSteps initStatus 0 ms = some st2 →
        (st2.toMove = Color.white ↔ ms.length % 2 = 0)) := by
  constructor
  · exact detStep_cont_toMove
  · intro ms st2 h
    have h1 := runSteps_toMove ms initStatus 0 st2 h
    by_cases hp : ms.length % 2 = 0
    · rw [if_pos hp] at h1
      simp [h1, hp, initStatus]
    · rw [if_neg hp] at h1
      constructor
      · intro hw
        rw [hw] at h1
        exact absurd h1 (by decide)
      · intro he
        exact absurd he hp

/-- Witness for C9: after the two tokens e4, e5 the side to move is white
again. -/
theorem c9_witness :
    (⟨none, ['d', '1'], ['d', '8'], Color.white⟩ : DetState).toMove = Color.white
      ↔ ([['e', '4'], ['e', '5']] : List (List Char)).length % 2 = 0 :=
  c9_color_alternation.2 [['e', '4'], ['e', '5']] _ (by decide)

/-- C10: a token that does not begin with the queen-piece marker leaves
both tracked queen squares unchanged whenever its processing continues the
loop; only the side-to-move flag and the pending state may change. -/
theorem c10_non_queen_frame (st : DetState) (i : Nat) (m : List Char)
    (st2 : DetState) (hq : startsWithQ m = false)
    (h : detStep st i m = StepRes.cont st2) :
    st2.whiteQ = st.whiteQ ∧ st2.blackQ = st.blackQ := by
  have hqu : ∀ st3 : DetState, qUpdate st3 m = st3 := by
    intro st3
    unfold qUpdate
    rw [if_neg (by simp [hq])]
  unfold detStep at h
  split at h
  · cases h
  · split at h
    · split at h
      · cases h
      · cases h
        constructor <;> simp [finishStep, hqu]
    · cases h
      constructor <;> simp [finishStep, hqu]

/-- Witness for C10: the token e4 leaves both queen squares at their
initial values. -/
theorem c10_witness :
    (⟨none, ['d', '1'], ['d', '8'], Color.black⟩ : DetState).whiteQ = initStatus.whiteQ
      ∧ (⟨none, ['d', '1'], ['d', '8'], Color.black⟩ : DetState).blackQ = initStatus.blackQ :=
  c10_non_queen_frame initStatus 0 ['e', '4'] _ (by decide) (by decide)

/-- Helper: subQx leaves a list without the letter Q unchanged. -/
lemma subQx_not_mem (l : List Char) (h : 'Q' ∉ l) : subQx l = l := by
  induction l with
  | nil => rfl
  | cons c rest ih =>
    have hc : ¬ c = 'Q' := by
      intro e
      exact h (e ▸ List.mem_cons_self c rest)
    have hrest : 'Q' ∉ rest := fun hm => h (List.mem_cons_of_mem c hm)
    cases rest with
    | nil =>
      simp only [subQx]
      rw [if_neg hc]
    | cons d r2 =>
      simp only [subQx]
      rw [if_neg hc, ih hrest]

/-- Helper: subQx drops a leading Q-x pair. -/
lemma subQx_qx (r : List Char) : subQx ('Q' :: 'x' :: r) = subQx r := rfl

/-- Helper: subQx drops a leading Q when no x follows it and the rest has
no further Q. -/
lemma subQx_q_cons (sq : List Char) (hq : 'Q' ∉ sq) (hx : 'x' ∉ sq) :
    subQx ('Q' :: sq) = sq := by
  cases sq with
  | nil => rfl
  | cons d rest =>
    have hd : ¬ d = 'x' := by
      intro e
      exact hx (e ▸ List.mem_cons_self d rest)
    have e1 : subQx ('Q' :: d :: rest)
        = if d = 'x' then subQx rest else subQx (d :: rest) := rfl
    rw [e1, if_neg hd]
    exact subQx_not_mem _ hq

/-- Helper: the plus-removing replace leaves a list without a plus sign
unchanged. -/
lemma filter_ne_plus (l : List Char) (h : '+' ∉ l) :
    l.filter (fun c => c != '+') = l := by
  induction l with
  | nil => rfl
  | cons c rest ih =>
    have hc : (c != '+') = true := by
      rw [bne_iff_ne]
      intro e
      exact h (e ▸ List.mem_cons_self c rest)
    rw [List.filter_cons, if_pos hc, ih (fun hm => h (List.mem_cons_of_mem c hm))]

/-- Helper: non-membership in a cons cell from disequality of heads. -/
lemma not_mem_cons_of (c a : Char) (l : List Char) (h1 : ¬ c = a) (h2 : c ∉ l) :
    c ∉ a :: l := by
  intro hm
  rcases List.mem_cons.mp hm with e | e
  · exact h1 e
  · exact h2 e

/-- Helper: non-membership in an appended singleton. -/
lemma not_mem_append_single (c a : Char) (l : List Char) (h1 : c ∉ l) (h2 : ¬ c = a) :
    c ∉ l ++ [a] := by
  intro hm
  rcases List.mem_append.mp hm with e | e
  · exact h1 e
  · rcases List.mem_singleton.mp e with e2
    exact h2 e2

/-- C8 counterexample: processing the checkmate-marked queen move Qd8#
stores the square d8# (the hash sign is not stripped, only plus signs are),
not d8 as the claim demands. -/
theorem c8_counterexample :
    detStep initStatus 0 ['Q', 'd', '8', '#']
        = StepRes.cont ⟨none, ['d', '8', '#'], ['d', '8'], Color.black⟩
      ∧ (['d', '8', '#'] : List Char) ≠ ['d', '8'] := by
  decide

/-- C8 amended: for a token beginning with the queen-piece marker the
side-to-move's tracked queen square is set to the token minus the piece
marker, an optional capture marker and every plus sign; so for the forms
Q-sq, Qx-sq, Q-sq-plus and Qx-sq-plus the stored square is sq, but for the
checkmate-marked variants Q-sq-hash and Qx-sq-hash the stored square is sq
followed by the hash sign, because the code strips plus signs only. -/
theorem c8_queen_square_amended (st : DetState) (sq : List Char)
    (hq : 'Q' ∉ sq) (hx : 'x' ∉ sq) (hp : '+' ∉ sq) :
    qUpdate st ('Q' :: sq) = setQueen st st.toMove sq
    ∧ qUpdate st ('Q' :: 'x' :: sq) = setQueen st st.toMove sq
    ∧ qUpdate st ('Q' :: (sq ++ ['+'])) = setQueen st st.toMove sq
    ∧ qUpdate st ('Q' :: 'x' :: (sq ++ ['+'])) = setQueen st st.toMove sq
    ∧ qUpdate st ('Q' :: (sq ++ ['#'])) = setQueen st st.toMove (sq ++ ['#'])
    ∧ qUpdate st ('Q' :: 'x' :: (sq ++ ['#'])) = setQueen st st.toMove (sq ++ ['#']) := by
  have hfsq : sq.filter (fun c => c != '+') = sq := filter_ne_plus sq hp
  have hfp : (sq ++ ['+']).filter (fun c => c != '+') = sq := by
    rw [List.filter_append, hfsq,
      show List.filter (fun c => c != '+') ['+'] = [] from rfl, List.append_nil]
  have hfh : (sq ++ ['#']).filter (fun c => c != '+') = sq ++ ['#'] :=
    filter_ne_plus _ (not_mem_append_single '+' '#' sq hp (by decide))
  have hqh : 'Q' ∉ sq ++ ['#'] := not_mem_append_single 'Q' '#' sq hq (by decide)
  have hxh : 'x' ∉ sq ++ ['#'] := not_mem_append_single 'x' '#' sq hx (by decide)
  have hlink : ∀ (m res : List Char), startsWithQ m = true → queenDest m = res →
      qUpdate st m = setQueen st st.toMove res := by
    intro m res h1 h2
    unfold qUpdate
    rw [if_pos h1, h2]
  refine ⟨?_, ?_, ?_, ?_, ?_, ?_⟩
  · refine hlink _ _ rfl ?_
    unfold queenDest
    rw [List.filter_cons, if_pos (by decide), hfsq]
    exact subQx_q_cons sq hq hx
  · refine hlink _ _ rfl ?_
    unfold queenDest
    rw [List.filter_cons, if_pos (by decide), List.filter_cons, if_pos (by decide), hfsq,
      subQx_qx]
    exact subQx_not_mem sq hq
  · refine hlink _ _ rfl ?_
    unfold queenDest
    rw [List.filter_cons, if_pos (by decide), hfp]
    exact subQx_q_cons sq hq hx
  · refine hlink _ _ rfl ?_
    unfold queenDest
    rw [List.filter_cons, if_pos (by decide), List.filter_cons, if_pos (by decide), hfp,
      subQx_qx]
    exact subQx_not_mem sq hq
  · refine hlink _ _ rfl ?_
    unfold queenDest
    rw [List.filter_cons, if_pos (by decide), hfh]
    exact subQx_q_cons _ hqh hxh
  · refine hlink _ _ rfl ?_
    unfold queenDest
    rw [List.filter_cons, if_pos (by decide), List.filter_cons, if_pos (by decide), hfh,
      subQx_qx]
    exact subQx_not_mem _ hqh

/-- Witness for C8 amended: the checkmate-marked queen move Qd8# stores
d8#. -/
theorem c8_witness :
    qUpdate initStatus ['Q', 'd', '8', '#']
      = setQueen initStatus initStatus.toMove ['d', '8', '#'] :=
  (c8_queen_square_amended initStatus ['d', '8'] (by decide) (by decide) (by decide)).2.2.2.2.1

/-! Claims about the tokenizer. -/

/-- C7 counterexample: a run of three spaces between a and b is collapsed
to two spaces, not to a single space as the claim demands: the lazy plus of
the pattern matches exactly one character, so each replacement consumes
exactly two whitespace characters. -/
theorem c7_counterexample :
    collapseWs ['a', ' ', ' ', ' ', 'b'] = ['a', ' ', ' ', 'b']
      ∧ collapseWs ['a', ' ', ' ', ' ', 'b'] ≠ ['a', ' ', 'b'] := by
  decide

/-- C7 amended: each leftmost pair of consecutive whitespace characters is
replaced by one space, so a run of n whitespace characters shrinks to
ceil of n / 2 characters, not to one: a run of n spaces followed by a
non-whitespace character becomes (n + 1) / 2 spaces followed by that
character. -/
theorem c7_ws_pairs_amended (n : Nat) (c : Char) (hc : isWs c = false) :
    collapseWs (List.replicate n ' ' ++ [c])
      = List.replicate ((n + 1) / 2) ' ' ++ [c] := by
  induction n using Nat.strong_induction_on with
  | _ n ih =>
    rcases n with - | n1
    · simp [collapseWs]
    · rcases n1 with - | m
      · simp [collapseWs, hc]
      · have e2 : (m + 1 + 1 + 1) / 2 = (m + 1) / 2 + 1 := by omega
        rw [List.replicate_succ, List.replicate_succ, List.cons_append, List.cons_append]
        simp only [collapseWs]
        rw [if_pos (by decide), ih m (by omega), e2, List.replicate_succ, List.cons_append]

/-- Witness for C7 amended at a run of three spaces. -/
theorem c7_witness :
    collapseWs (List.replicate 3 ' ' ++ ['b'])
      = List.replicate ((3 + 1) / 2) ' ' ++ ['b'] :=
  c7_ws_pairs_amended 3 'b' (by decide)

/-- Helper: the split on a double newline never yields an empty list of
parts. -/
lemma splitNN_ne_nil (s : List Char) : splitNN s ≠ [] := by
  cases s with
  | nil => simp [splitNN]
  | cons c rest =>
    cases rest with
    | nil => simp [splitNN]
    | cons d r2 =>
      simp only [splitNN]
      split
      · simp
      · split <;> simp

/-- Helper: the split on a double newline yields at least two parts exactly
when the double newline occurs in the input. -/
lemma splitNN_two_iff (s : List Char) :
    2 ≤ (splitNN s).length ↔ isSubstr ['\n', '\n'] s = true := by
  induction s with
  | nil => simp [splitNN, isSubstr, startsWith]
  | cons c tail ih =>
    cases tail with
    | nil => simp [splitNN, isSubstr, startsWith]
    | cons d rest =>
      by_cases hnn : c = '\n' ∧ d = '\n'
      · refine iff_of_true ?_ ?_
        · simp only [splitNN, if_pos hnn, List.length_cons]
          have h1 : splitNN rest ≠ [] := splitNN_ne_nil rest
          have h2 : 1 ≤ (splitNN rest).length := by
            cases he : splitNN rest
            · exact absurd he h1
            · simp [List.length_cons]
          omega
        · simp [isSubstr, startsWith, hnn.1, hnn.2]
      · have hsw : startsWith ['\n', '\n'] (c :: d :: rest) = false := by
          cases hb : startsWith ['\n', '\n'] (c :: d :: rest) with
          | false => rfl
          | true =>
            exfalso
            apply hnn
            simp only [startsWith, Bool.and_eq_true, beq_iff_eq] at hb
            exact ⟨hb.1.symm, hb.2.1.symm⟩
        have hrhs : isSubstr ['\n', '\n'] (c :: d :: rest)
            = isSubstr ['\n', '\n'] (d :: rest) := by
          rw [isSubstr, hsw, Bool.false_or]
        rw [hrhs, ← ih]
        simp only [splitNN, if_neg hnn]
        rcases h2 : splitNN (d :: rest) with - | ⟨f, fs⟩
        · exact absurd h2 (splitNN_ne_nil (d :: rest))
        · simp [List.length_cons]

/-- C4 counterexample: a move-text blob with no blank-line separator makes
the index access of line 71 raise IndexError (modelled as none): the
Tokenizer does not return a sequence for it, so the core is not total. -/
theorem c4_counterexample :
    getMovesList ['e', '4'] = none
      ∧ (getMovesList ['e', '4']).isSome = false := by
  decide

/-- C4 amended: the Tokenizer returns a sequence exactly for blobs that
contain a blank-line separator (a double newline); for every other blob the
index access after the split raises IndexError instead of degrading to an
empty result. -/
theorem c4_blank_line_amended (pgn : List Char) :
    (getMovesList pgn).isSome = true ↔ isSubstr ['\n', '\n'] pgn = true := by
  rw [← splitNN_two_iff pgn]
  unfold getMovesList
  rcases h : splitNN pgn with - | ⟨a, t⟩
  · exact absurd h (splitNN_ne_nil pgn)
  · rcases t with - | ⟨m, t2⟩
    · simp
    · simp [List.length_cons]

/-- Helper: a digit is not a whitespace character. -/
lemma isDigit_not_ws (c : Char) (h : c.isDigit = true) : isWs c = false := by
  cases hw : isWs c with
  | false => rfl
  | true =>
    exfalso
    simp only [isWs, Bool.or_eq_true, beq_iff_eq] at hw
    rcases hw with ((((e | e) | e) | e) | e) | e <;> subst e <;> exact absurd h (by decide)

/-- Helper: the split pattern matches at a digit that is immediately
followed by a period. -/
lemma matchNum_digit_dot (c : Char) (t : List Char) (h : c.isDigit = true) :
    (matchNum (c :: '.' :: t)).isSome = true := by
  have hw := isDigit_not_ws c h
  have e1 : matchNum (c :: '.' :: t)
      = afterDot (dropDigits (c :: '.' :: t)) := by
    simp [matchNum, hw, hasDigitHead, h]
  have e2 : dropDigits (c :: '.' :: t) = '.' :: t := by
    simp only [dropDigits, h, if_true]
    rfl
  rw [e1, e2]
  cases t with
  | nil => rfl
  | cons w t2 =>
    cases hisw : isWs w <;> simp [afterDot, hisw]

/-- Helper: dropping the digit run does not lengthen the input. -/
lemma dropDigits_length (l : List Char) : (dropDigits l).length ≤ l.length := by
  induction l with
  | nil => simp [dropDigits]
  | cons c rest ih =>
    simp only [dropDigits]
    split
    · exact Nat.le_trans ih (by simp [List.length_cons])
    · exact Nat.le_refl _

/-- Helper: a successful afterDot consumes at least one character. -/
lemma afterDot_length (t r : List Char) (h : afterDot t = some r) :
    r.length < t.length := by
  cases t with
  | nil => cases h
  | cons a rest =>
    cases rest with
    | nil =>
      simp only [afterDot] at h
      split at h
      · cases h
        simp
      · cases h
    | cons w r2 =>
      simp only [afterDot] at h
      split at h
      · split at h <;> (cases h; simp only [List.length_cons]; omega)
      · cases h

/-- Helper: a successful match of the split pattern consumes at least one
character. -/
lemma matchNum_length (s r : List Char) (h : matchNum s = some r) :
    r.length < s.length := by
  cases s with
  | nil => cases h
  | cons c rest =>
    simp only [matchNum] at h
    split at h
    · split at h
      · have h1 := afterDot_length _ _ h
        have h2 := dropDigits_length rest
        simp only [List.length_cons]
        omega
      · cases h
    · split at h
      · have h1 := afterDot_length _ _ h
        have h2 := dropDigits_length (c :: rest)
        simp only [List.length_cons] at h2 ⊢
        omega
      · cases h

/-- Helper: the fuelled split never yields an empty list of fragments. -/
lemma splitNumsF_ne_nil (fuel : Nat) (s : List Char) : splitNumsF fuel s ≠ [] := by
  cases fuel with
  | zero => cases s <;> simp [splitNumsF]
  | succ f =>
    cases s with
    | nil => simp [splitNumsF]
    | cons c rest =>
      simp only [splitNumsF]
      split
      · simp
      · split <;> simp

/-- Helper: when the split pattern does not match at the head, the first
fragment starts with the head character. -/
lemma splitNumsF_head (fuel : Nat) (c : Char) (rest : List Char)
    (h : matchNum (c :: rest) = none) :
    ∃ g fs, splitNumsF fuel (c :: rest) = (c :: g) :: fs := by
  cases fuel with
  | zero => exact ⟨rest, [], rfl⟩
  | succ f =>
    simp only [splitNumsF, h]
    rcases h2 : splitNumsF f rest with - | ⟨g, fs⟩
    · exact absurd h2 (splitNumsF_ne_nil f rest)
    · exact ⟨g, fs, rfl⟩

/-- Helper: the first character of a nonempty first fragment is the first
character of the split input. -/
lemma splitNumsF_head_eq (fuel : Nat) (c2 : Char) (rest2 : List Char) (b : Char)
    (f1 : List Char) (fs : List (List Char))
    (h : splitNumsF fuel (c2 :: rest2) = (b :: f1) :: fs) : c2 = b := by
  cases fuel with
  | zero =>
    have e : splitNumsF 0 (c2 :: rest2) = [c2 :: rest2] := rfl
    rw [e] at h
    injection h with h3 h4
    injection h3 with h5 h6
  | succ f =>
    rcases hm2 : matchNum (c2 :: rest2) with - | r2
    · obtain ⟨g, gs, hg⟩ := splitNumsF_head (f + 1) c2 rest2 hm2
      rw [hg] at h
      injection h with h3 h4
      injection h3 with h5 h6
    · have e : splitNumsF (f + 1) (c2 :: rest2) = [] :: splitNumsF f r2 := by
        simp only [splitNumsF, hm2]
      rw [e] at h
      injection h with h3 h4
      cases h3

/-- Helper: no fragment produced by the fuelled split contains a digit
immediately followed by a period, provided the fuel covers the input. -/
lemma splitNumsF_noNumDot (fuel : Nat) : ∀ (s : List Char), s.length ≤ fuel →
    ∀ f ∈ splitNumsF fuel s, noNumDot f = true := by
  induction fuel with
  | zero =>
    intro s hs f hf
    have hnil : s = [] := List.length_eq_zero.mp (Nat.le_zero.mp hs)
    subst hnil
    simp only [splitNumsF, List.mem_singleton] at hf
    simp [hf, noNumDot]
  | succ fl ih =>
    intro s hs f hf
    cases s with
    | nil =>
      simp only [splitNumsF, List.mem_singleton] at hf
      simp [hf, noNumDot]
    | cons c rest =>
      rcases hm : matchNum (c :: rest) with - | r
      · rcases h2 : splitNumsF fl rest with - | ⟨f0, fs⟩
        · exact absurd h2 (splitNumsF_ne_nil fl rest)
        · have hsplit : splitNumsF (fl + 1) (c :: rest) = (c :: f0) :: fs := by
            simp only [splitNumsF, hm, h2]
          rw [hsplit] at hf
          have hrestlen : rest.length ≤ fl := by
            simp only [List.length_cons] at hs
            omega
          rcases List.mem_cons.mp hf with he | he
          · subst he
            have hf0 : noNumDot f0 = true := by
              apply ih rest hrestlen f0
              rw [h2]
              exact List.mem_cons_self f0 fs
            cases f0 with
            | nil => simp [noNumDot]
            | cons b f1 =>
              have hb : (c.isDigit && (b == '.')) = false := by
                by_cases hd : c.isDigit = true
                · by_cases hdot : b = '.'
                  · exfalso
                    subst hdot
                    rcases rest with - | ⟨c2, rest2⟩
                    · rw [show splitNumsF fl ([] : List Char) = [[]] from by
                        cases fl <;> rfl] at h2
                      injection h2 with h3 h4
                      cases h3
                    · have hc2 : c2 = '.' := splitNumsF_head_eq fl c2 rest2 '.' f1 fs h2
                      subst hc2
                      have hsome := matchNum_digit_dot c rest2 hd
                      rw [hm] at hsome
                      cases hsome
                  · rw [hd, Bool.true_and]
                    exact beq_eq_false_iff_ne.mpr hdot
                · have hdd : c.isDigit = false := by
                    cases hdd2 : c.isDigit
                    · rfl
                    · exact absurd hdd2 hd
                  rw [hdd, Bool.false_and]
              simp [noNumDot, hb, hf0]
          · apply ih rest hrestlen f
            rw [h2]
            exact List.mem_cons_of_mem f0 he
      · have hsplit : splitNumsF (fl + 1) (c :: rest) = [] :: splitNumsF fl r := by
          simp only [splitNumsF, hm]
        rw [hsplit] at hf
        rcases List.mem_cons.mp hf with he | he
        · simp [he, noNumDot]
        · apply ih r ?_ f he
          have hlen := matchNum_length _ _ hm
          simp only [List.length_cons] at hs hlen
          omega

/-- C6 counterexample: on the blob pgnC6 the Tokenizer emits a token
containing the result marker 1-0 (the str.replace of line 77 does not
rescan the junction it creates), a token containing the brace pair (the
lazy brace pattern needs at least one inner character, so an empty pair
survives), and two empty tokens (adjacent move-number matches), refuting
all three of the corresponding claimed exclusions. -/
theorem c6_counterexample :
    getMovesList pgnC6
        = some [['e', '4', ' ', '1', '-', '0'], ['d', '4', ' ', '{', '}'], [], []]
      ∧ isSubstr ['1', '-', '0'] ['e', '4', ' ', '1', '-', '0'] = true
      ∧ '{' ∈ ['d', '4', ' ', '{', '}']
      ∧ ([] : List Char) ∈ [['e', '4', ' ', '1', '-', '0'], ['d', '4', ' ', '{', '}'],
          ([] : List Char), []] := by
  refine ⟨by decide, by decide, by decide, by decide⟩

/-- C6 amended: for every blob the Tokenizer accepts, the produced tokens
contain no move-number marker (no digit immediately followed by a period);
braced text, result markers and empty tokens can however survive into the
output. -/
theorem c6_no_move_numbers_amended (pgn : List Char) (ts : List (List Char))
    (h : getMovesList pgn = some ts) : ∀ f ∈ ts, noNumDot f = true := by
  intro f hf
  unfold getMovesList at h
  rcases hs : splitNN pgn with - | ⟨a, t⟩
  · rw [hs] at h
    cases h
  · rcases t with - | ⟨m, t2⟩
    · rw [hs] at h
      cases h
    · rw [hs] at h
      cases h
      have hf2 : f ∈ splitNums (normalizeMoves m) := List.drop_subset 1 _ hf
      unfold splitNums at hf2
      exact splitNumsF_noNumDot (normalizeMoves m).length (normalizeMoves m)
        (Nat.le_refl _) f hf2

/-- Witness for C6 amended on a well-formed blob with one move pair. -/
theorem c6_witness : noNumDot ['e', '4', ' ', 'e', '5'] = true :=
  c6_no_move_numbers_amended
    ['m', '\n', '\n', '1', '.', ' ', 'e', '4', ' ', 'e', '5']
    [['e', '4', ' ', 'e', '5']] (by decide) ['e', '4', ' ', 'e', '5'] (by decide)

end Chess
